import Mathlib

/-!
Verification development for the terminal emulation and selection core of
the sheesh repository (src/src/tabs/terminal.rs).

Text is modelled as `List Char` (Rust iterates Unicode scalar values via
`str::chars()`); byte offsets are recovered through `Char.utf8Size`, which
agrees with Rust's `char::len_utf8`.
-/

set_option maxHeartbeats 1000000
set_option maxRecDepth 4000

namespace Sheesh

/-- Colors from ratatui used by `apply_sgr` (terminal.rs lines 180-249). -/
inductive Color where
  | black | red | green | yellow | blue | magenta | cyan | white
  | darkGray | lightRed | lightGreen | lightYellow | lightBlue
  | lightMagenta | lightCyan | gray
  | indexed (n : Nat)
  | rgb (r g b : Nat)
deriving DecidableEq

/-- The modifier bit-set of ratatui, restricted to the bits `apply_sgr` touches. -/
structure Modifiers where
  bold : Bool
  dim : Bool
  italic : Bool
  underlined : Bool
  slowBlink : Bool
  reversed : Bool
  hidden : Bool
  crossedOut : Bool
deriving DecidableEq

/-- `Modifier::empty()`. -/
def Modifiers.none : Modifiers := ⟨false, false, false, false, false, false, false, false⟩

/-- ratatui `Style` as far as `AnsiState::to_style` populates it (terminal.rs lines 47-59). -/
structure Style where
  fg : Option Color
  bg : Option Color
  modifiers : Modifiers
deriving DecidableEq

/-- `Style::default()`. -/
def Style.default : Style := ⟨none, none, Modifiers.none⟩

/-- `AnsiState` (terminal.rs lines 39-44): ANSI SGR state carried across line boundaries. -/
structure AnsiState where
  fg : Option Color
  bg : Option Color
  modifiers : Modifiers
deriving DecidableEq

/-- `AnsiState::default()`. -/
def AnsiState.default : AnsiState := ⟨none, none, Modifiers.none⟩

/-- `AnsiState::to_style` (terminal.rs lines 47-59): adding an empty modifier
set is a no-op, so the fields carry over directly. -/
def AnsiState.toStyle (s : AnsiState) : Style := ⟨s.fg, s.bg, s.modifiers⟩

/-- `StyledSpan` (terminal.rs lines 33-36): a text segment with a style. -/
structure StyledSpan where
  text : List Char
  style : Style
deriving DecidableEq

/-- `plain_text` (terminal.rs lines 258-260): concatenation of span texts. -/
def plain_text (line : List StyledSpan) : List Char := (line.map StyledSpan.text).flatten

/-- Rust `char::is_control`: the Unicode Cc category. -/
def rustIsControl (c : Char) : Bool := c.toNat < 0x20 || (0x7f ≤ c.toNat && c.toNat ≤ 0x9f)

/-- Rust `str::parse::<u8>`: optional leading plus sign, at least one ASCII
digit, all digits, value at most 255 (overflow is an error). -/
def parseU8 (s : List Char) : Option Nat :=
  let ds := match s with | '+' :: rest => rest | _ => s
  if ds ≠ [] ∧ ds.all Char.isDigit then
    let v := ds.foldl (fun a c => a * 10 + (c.toNat - '0'.toNat)) 0
    if v ≤ 255 then some v else none
  else none

/-- Rust `str::split(';')`: splitting the empty string yields one empty piece. -/
def splitSemi : List Char → List (List Char)
  | [] => [[]]
  | c :: rest =>
    if c = ';' then [] :: splitSemi rest
    else
      match splitSemi rest with
      | [] => [[c]]
      | g :: gs => (c :: g) :: gs

/-- The code-application loop of `apply_sgr` (terminal.rs lines 157-254).
The 38/48 extended-color forms consume their arguments only when enough
codes follow (the `i + 2 < len` / `i + 4 < len` guards); otherwise the
following codes are processed as ordinary SGR codes. -/
def applyCodes : List Nat → AnsiState → AnsiState
  | [], st => st
  | 0 :: rest, _ => applyCodes rest AnsiState.default
  | 1 :: rest, st => applyCodes rest { st with modifiers := { st.modifiers with bold := true } }
  | 2 :: rest, st => applyCodes rest { st with modifiers := { st.modifiers with dim := true } }
  | 3 :: rest, st => applyCodes rest { st with modifiers := { st.modifiers with italic := true } }
  | 4 :: rest, st => applyCodes rest { st with modifiers := { st.modifiers with underlined := true } }
  | 5 :: rest, st | 6 :: rest, st =>
    applyCodes rest { st with modifiers := { st.modifiers with slowBlink := true } }
  | 7 :: rest, st => applyCodes rest { st with modifiers := { st.modifiers with reversed := true } }
  | 8 :: rest, st => applyCodes rest { st with modifiers := { st.modifiers with hidden := true } }
  | 9 :: rest, st => applyCodes rest { st with modifiers := { st.modifiers with crossedOut := true } }
  | 22 :: rest, st =>
    applyCodes rest { st with modifiers := { st.modifiers with bold := false, dim := false } }
  | 23 :: rest, st => applyCodes rest { st with modifiers := { st.modifiers with italic := false } }
  | 24 :: rest, st => applyCodes rest { st with modifiers := { st.modifiers with underlined := false } }
  | 25 :: rest, st => applyCodes rest { st with modifiers := { st.modifiers with slowBlink := false } }
  | 27 :: rest, st => applyCodes rest { st with modifiers := { st.modifiers with reversed := false } }
  | 28 :: rest, st => applyCodes rest { st with modifiers := { st.modifiers with hidden := false } }
  | 29 :: rest, st => applyCodes rest { st with modifiers := { st.modifiers with crossedOut := false } }
  | 30 :: rest, st => applyCodes rest { st with fg := some Color.black }
  | 31 :: rest, st => applyCodes rest { st with fg := some Color.red }
  | 32 :: rest, st => applyCodes rest { st with fg := some Color.green }
  | 33 :: rest, st => applyCodes rest { st with fg := some Color.yellow }
  | 34 :: rest, st => applyCodes rest { st with fg := some Color.blue }
  | 35 :: rest, st => applyCodes rest { st with fg := some Color.magenta }
  | 36 :: rest, st => applyCodes rest { st with fg := some Color.cyan }
  | 37 :: rest, st => applyCodes rest { st with fg := some Color.white }
  | 38 :: 5 :: n :: rest, st => applyCodes rest { st with fg := some (Color.indexed n) }
  | 38 :: 2 :: r :: g :: b :: rest, st => applyCodes rest { st with fg := some (Color.rgb r g b) }
  | 38 :: rest, st => applyCodes rest st
  | 39 :: rest, st => applyCodes rest { st with fg := none }
  | 40 :: rest, st => applyCodes rest { st with bg := some Color.black }
  | 41 :: rest, st => applyCodes rest { st with bg := some Color.red }
  | 42 :: rest, st => applyCodes rest { st with bg := some Color.green }
  | 43 :: rest, st => applyCodes rest { st with bg := some Color.yellow }
  | 44 :: rest, st => applyCodes rest { st with bg := some Color.blue }
  | 45 :: rest, st => applyCodes rest { st with bg := some Color.magenta }
  | 46 :: rest, st => applyCodes rest { st with bg := some Color.cyan }
  | 47 :: rest, st => applyCodes rest { st with bg := some Color.white }
  | 48 :: 5 :: n :: rest, st => applyCodes rest { st with bg := some (Color.indexed n) }
  | 48 :: 2 :: r :: g :: b :: rest, st => applyCodes rest { st with bg := some (Color.rgb r g b) }
  | 48 :: rest, st => applyCodes rest st
  | 49 :: rest, st => applyCodes rest { st with bg := none }
  | 90 :: rest, st => applyCodes rest { st with fg := some Color.darkGray }
  | 91 :: rest, st => applyCodes rest { st with fg := some Color.lightRed }
  | 92 :: rest, st => applyCodes rest { st with fg := some Color.lightGreen }
  | 93 :: rest, st => applyCodes rest { st with fg := some Color.lightYellow }
  | 94 :: rest, st => applyCodes rest { st with fg := some Color.lightBlue }
  | 95 :: rest, st => applyCodes rest { st with fg := some Color.lightMagenta }
  | 96 :: rest, st => applyCodes rest { st with fg := some Color.lightCyan }
  | 97 :: rest, st => applyCodes rest { st with fg := some Color.gray }
  | 100 :: rest, st => applyCodes rest { st with bg := some Color.darkGray }
  | 101 :: rest, st => applyCodes rest { st with bg := some Color.lightRed }
  | 102 :: rest, st => applyCodes rest { st with bg := some Color.lightGreen }
  | 103 :: rest, st => applyCodes rest { st with bg := some Color.lightYellow }
  | 104 :: rest, st => applyCodes rest { st with bg := some Color.lightBlue }
  | 105 :: rest, st => applyCodes rest { st with bg := some Color.lightMagenta }
  | 106 :: rest, st => applyCodes rest { st with bg := some Color.lightCyan }
  | 107 :: rest, st => applyCodes rest { st with bg := some Color.gray }
  | _ :: rest, st => applyCodes rest st

/-- `apply_sgr` (terminal.rs lines 149-255). -/
def apply_sgr (params : List Char) (st : AnsiState) : AnsiState :=
  if params = [] ∨ params = ['0'] then AnsiState.default
  else applyCodes ((splitSemi params).filterMap parseU8) st

/-- The `flush!` macro of `parse_ansi` (terminal.rs lines 72-91): move the
accumulated text into the span list, merging with the previous span when the
style is unchanged. -/
def flush (spans : List StyledSpan) (text : List Char) (sty : Style) : List StyledSpan :=
  if text = [] then spans
  else
    match spans.getLast? with
    | some s0 =>
      if s0.style = sty then spans.dropLast ++ [⟨s0.text ++ text, s0.style⟩]
      else spans ++ [⟨text, sty⟩]
    | none => spans ++ [⟨text, sty⟩]

/-- The CSI parameter loop of `parse_ansi` (terminal.rs lines 99-107):
accumulate bytes until the first ASCII-alphabetic final byte; if the input
ends first the final byte stays the NUL placeholder. -/
def takeCSI : List Char → List Char × Char × List Char
  | [] => ([], '\x00', [])
  | c :: rest =>
    if c.isAlpha then ([], c, rest)
    else
      let r := takeCSI rest
      (c :: r.1, r.2.1, r.2.2)

theorem takeCSI_len (l : List Char) : (takeCSI l).2.2.length ≤ l.length := by
  induction l with
  | nil => simp [takeCSI]
  | cons c rest ih =>
    simp only [takeCSI]
    split
    · simp
    · simpa using Nat.le_succ_of_le ih

/-- The OSC skip loop of `parse_ansi` (terminal.rs lines 117-128): discard up
to a BEL, or an ESC optionally followed by a backslash, or end of input. -/
def skipOSC : List Char → List Char
  | [] => []
  | c :: rest =>
    if c = '\x07' then rest
    else if c = '\x1b' then
      match rest with
      | '\\' :: r2 => r2
      | _ => rest
    else skipOSC rest

theorem skipOSC_len (l : List Char) : (skipOSC l).length ≤ l.length := by
  induction l with
  | nil => simp [skipOSC]
  | cons c rest ih =>
    simp only [skipOSC]
    split
    · simp
    · split
      · split
        · simp; omega
        · simp
      · exact Nat.le_succ_of_le ih

/-- The main loop of `parse_ansi` (terminal.rs lines 66-145), with the span
accumulator, the pending-text accumulator and the SGR state made explicit.
Returns the spans together with the final state. -/
def parseAnsiGo (st : AnsiState) (spans : List StyledSpan) (text : List Char) :
    List Char → List StyledSpan × AnsiState
  | [] => (flush spans text st.toStyle, st)
  | c :: rest =>
    if c = '\x1b' then
      match rest with
      | [] => (flush spans text st.toStyle, st)
      | d :: rest2 =>
        if d = '[' then
          let r := takeCSI rest2
          if r.2.1 = 'm' then
            parseAnsiGo (apply_sgr r.1 st) (flush spans text st.toStyle) [] r.2.2
          else
            parseAnsiGo st spans text r.2.2
        else if d = ']' then
          parseAnsiGo st spans text (skipOSC rest2)
        else
          parseAnsiGo st spans text rest2
    else if c = '\x0d' then parseAnsiGo st spans text rest
    else if c = '\x08' then parseAnsiGo st spans text.dropLast rest
    else if rustIsControl c ∧ c ≠ '\t' then parseAnsiGo st spans text rest
    else parseAnsiGo st spans (text ++ [c]) rest
termination_by input => input.length
decreasing_by
  all_goals simp_wf
  all_goals first
    | omega
    | exact Nat.lt_of_le_of_lt (takeCSI_len _) (by omega)
    | exact Nat.lt_of_le_of_lt (skipOSC_len _) (by omega)

/-- `parse_ansi` (terminal.rs lines 66-145). The Rust function mutates
`state` in place; here the updated state is returned alongside the spans. -/
def parse_ansi (input : List Char) (st : AnsiState) : List StyledSpan × AnsiState :=
  parseAnsiGo st [] [] input

/-! ## The output pump (reader thread of `TerminalTab::connect`, terminal.rs lines 315-369) -/

/-- `MAX_LINES` (terminal.rs line 23). -/
def MAX_LINES : Nat := 2000

/-- The `while let Some(pos) = partial.find('\n')` loop (terminal.rs lines
341-344): split the accumulator into the complete (newline-terminated) line
texts and the remainder after the last newline. -/
def splitNL : List Char → List (List Char) × List Char
  | [] => ([], [])
  | c :: rest =>
    let r := splitNL rest
    if c = '\n' then ([] :: r.1, r.2)
    else
      match r.1 with
      | [] => ([], c :: r.2)
      | l :: t => ((c :: l) :: t, r.2)

/-- Parse a list of complete lines in order, advancing the SGR state through
each (terminal.rs line 342). -/
def parseLines (st : AnsiState) : List (List Char) → List (List StyledSpan) × AnsiState
  | [] => ([], st)
  | l :: ls =>
    let p := parse_ansi l st
    let r := parseLines p.2 ls
    (p.1 :: r.1, r.2)

/-- The reader thread's per-iteration state: the scrollback buffer, the
in-flight accumulator (`partial` in the source, renamed here because of a
keyword clash), the `partial_in_buf` flag and the persistent `AnsiState`. -/
structure PumpState where
  lines : List (List StyledSpan)
  pend : List Char
  pendInBuf : Bool
  ansi : AnsiState
deriving DecidableEq

/-- The accumulator contents for one pump iteration (terminal.rs lines
327-337): a pending clear request empties the accumulator before the chunk
is appended. -/
def pumpPrep (clear : Bool) (s : PumpState) (chunk : List Char) : List Char :=
  (if clear then [] else s.pend) ++ chunk

/-- The buffer contents one pump iteration builds before eviction
(terminal.rs lines 353-359): drop the previous partial entry when one is in
the buffer, append the completed lines, then the freshly parsed partial line
(parsed from a copy of the state so the state only advances through complete
lines). -/
def pumpPre (clear : Bool) (s : PumpState) (chunk : List Char) : List (List StyledSpan) :=
  let acc := pumpPrep clear s chunk
  let st0 := if clear then AnsiState.default else s.ansi
  let sp := splitNL acc
  let pl := parseLines st0 sp.1
  (if (if clear then false else s.pendInBuf) ∧ s.lines ≠ [] then s.lines.dropLast else s.lines)
    ++ pl.1 ++ [(parse_ansi sp.2 pl.2).1]

/-- One full iteration of the reader loop for a decoded chunk (terminal.rs
lines 325-365), including the eviction step (lines 361-364). -/
def pumpStep (clear : Bool) (s : PumpState) (chunk : List Char) : PumpState :=
  { lines := (pumpPre clear s chunk).drop ((pumpPre clear s chunk).length - MAX_LINES)
    pend := (splitNL (pumpPrep clear s chunk)).2
    pendInBuf := true
    ansi := (parseLines (if clear then AnsiState.default else s.ansi)
              (splitNL (pumpPrep clear s chunk)).1).2 }

/-- `"\n".join` over plain-text lines, as used by `capture_since` and
`visible_text`. -/
def joinNL : List (List Char) → List Char
  | [] => []
  | [l] => l
  | l :: ls => l ++ '\n' :: joinNL ls

/-- `TerminalTab::capture_since` (terminal.rs lines 397-405). -/
def capture_since (lines : List (List StyledSpan)) (fromLine : Nat) : List Char :=
  joinNL ((lines.drop (min fromLine lines.length)).map plain_text)

/-- `TerminalTab::visible_text` (terminal.rs lines 408-416). -/
def visible_text (lines : List (List StyledSpan)) (lastN : Nat) : List Char :=
  joinNL ((lines.drop (lines.length - lastN)).map plain_text)

/-- `TerminalTab::line_count` (terminal.rs lines 392-394). -/
def line_count (lines : List (List StyledSpan)) : Nat := lines.length

/-! ## Byte offsets and UTF-8 boundaries -/

/-- Byte length of a text, matching Rust's `str::len` via `char::len_utf8`. -/
def utf8Len (l : List Char) : Nat := (l.map Char.utf8Size).sum

/-- All byte offsets that fall on a UTF-8 scalar-value boundary of `text`. -/
def byteBoundaries (text : List Char) : List Nat :=
  (List.range (text.length + 1)).map (fun i => utf8Len (text.take i))

/-- The offset `off` lies on a scalar-value boundary of `text`. -/
def IsBoundary (text : List Char) (off : Nat) : Prop := off ∈ byteBoundaries text

instance (text : List Char) (off : Nat) : Decidable (IsBoundary text off) := by
  unfold IsBoundary; infer_instance

/-- Convert a byte offset lying on a boundary to the index of the first char
at or after it (the char count of the byte prefix). -/
def charIdxAt (text : List Char) (off : Nat) : Nat :=
  match text, off with
  | [], _ => 0
  | c :: r, off => if 0 < off ∧ c.utf8Size ≤ off then 1 + charIdxAt r (off - c.utf8Size) else 0

/-! ## Visual row wrapping (`wrap_spans`, terminal.rs lines 720-766) -/

/-- The loop state of `wrap_spans`: finished rows (each with the byte offset
where it starts), the row being accumulated, the char count of that row, the
bytes consumed from the start of the line, and the byte offset where the
current row starts. -/
structure WrapSt where
  rows : List (List StyledSpan × Nat)
  current : List StyledSpan
  charsInRow : Nat
  lineByteOffset : Nat
  rowByteStart : Nat
deriving DecidableEq

/-- The inner `while !remaining.is_empty()` loop of `wrap_spans` (terminal.rs
lines 734-760) for a single span, with the width passed as `w1 + 1` since the
zero-width case returns early. -/
def wrapOne (w1 : Nat) (style : Style) (st : WrapSt) (remaining : List Char) : WrapSt :=
  if remaining = [] then st
  else
    let capacity := (w1 + 1) - st.charsInRow
    if remaining.length ≤ capacity then
      { st with current := st.current ++ [⟨remaining, style⟩],
                charsInRow := st.charsInRow + remaining.length,
                lineByteOffset := st.lineByteOffset + utf8Len remaining }
    else
      let head := remaining.take capacity
      let cur2 := if head = [] then st.current else st.current ++ [⟨head, style⟩]
      let lbo2 := st.lineByteOffset + utf8Len head
      wrapOne w1 style
        { rows := st.rows ++ [(cur2, st.rowByteStart)],
          current := [], charsInRow := 0,
          lineByteOffset := lbo2, rowByteStart := lbo2 } (remaining.drop capacity)
termination_by 2 * remaining.length + (if st.charsInRow = 0 then 0 else 1)
decreasing_by
  simp_wf
  rcases Nat.eq_zero_or_pos ((w1 + 1) - st.charsInRow) with hc | hc
  · have hne : st.charsInRow ≠ 0 := by omega
    simp [hc, hne]
  · split <;> omega

/-- The outer `for span in spans` loop of `wrap_spans` (terminal.rs lines
730-761). -/
def wrapGo (w1 : Nat) : List StyledSpan → WrapSt → WrapSt
  | [], st => st
  | sp :: rest, st => wrapGo w1 rest (wrapOne w1 sp.style st sp.text)

/-- `wrap_spans` (terminal.rs lines 720-766): split spans into visual rows of
at most `width` chars, recording each row's starting byte offset; the final
(possibly empty) row is always emitted. -/
def wrap_spans (spans : List StyledSpan) (width : Nat) : List (List StyledSpan × Nat) :=
  if width = 0 then [(spans, 0)]
  else
    let st := wrapGo (width - 1) spans ⟨[], [], 0, 0, 0⟩
    st.rows ++ [(st.current, st.rowByteStart)]

/-- The byte-offset computation of `TerminalTab::screen_to_buf` (terminal.rs
lines 455-464): starting from a visual row's byte offset into the line's
plain text, advance by the byte length of `screenCol` chars of the row. -/
def screen_to_buf_byte (text : List Char) (rowByteStart screenCol : Nat) : Nat :=
  rowByteStart + utf8Len ((text.drop (charIdxAt text rowByteStart)).take screenCol)

/-! ## Selection (`TerminalTab::selected_text`, terminal.rs lines 478-511) -/

/-- A (line index, byte offset) buffer position (terminal.rs line 29). -/
abbrev BufPos : Type := Nat × Nat

/-- `TerminalTab::selection_range` (terminal.rs lines 468-475): normalise the
anchor/cursor pair into reading order. -/
def selection_range (sel : Option (BufPos × BufPos)) : Option (BufPos × BufPos) :=
  match sel with
  | none => none
  | some (a, b) =>
    if a.1 < b.1 ∨ (a.1 = b.1 ∧ a.2 ≤ b.2) then some (a, b) else some (b, a)

/-- The largest char boundary at or below `off`, as found by
`(0..=from).rev().find(|i| text.is_char_boundary(i))` (terminal.rs lines
498-501). -/
def floorB (text : List Char) (off : Nat) : Nat :=
  match text, off with
  | [], _ => 0
  | c :: r, off => if c.utf8Size ≤ off then c.utf8Size + floorB r (off - c.utf8Size) else 0

/-- The smallest char boundary at or above `off`, as found by
`(to..=text.len()).find(|i| text.is_char_boundary(i))` (terminal.rs lines
502-504). -/
def ceilB (text : List Char) (off : Nat) : Nat :=
  match text, off with
  | [], _ => 0
  | c :: r, off => if off = 0 then 0 else c.utf8Size + ceilB r (off - c.utf8Size)

/-- Byte slice `text[a..b]` for boundary offsets `a ≤ b`, expressed on chars. -/
def sliceB (text : List Char) (a b : Nat) : List Char :=
  (text.drop (charIdxAt text a)).take (charIdxAt text b - charIdxAt text a)

/-- The per-line extraction step of `selected_text` (terminal.rs lines
486-505): clamp the byte range to the line, snap outward to char boundaries
and slice. -/
def selPiece (buffer : List (List StyledSpan)) (sFst sSnd eSnd endLine li : Nat) : List Char :=
  let text := plain_text (buffer.getD li [])
  let frm := if li = sFst then min sSnd (utf8Len text) else 0
  let to0 := if li = endLine then min eSnd (utf8Len text) else utf8Len text
  sliceB text (floorB text frm) (ceilB text to0)

/-- `TerminalTab::selected_text` (terminal.rs lines 478-511). -/
def selected_text (buffer : List (List StyledSpan))
    (sel : Option (BufPos × BufPos)) : Option (List Char) :=
  match selection_range sel with
  | none => none
  | some (s, e) =>
    if buffer.length ≤ s.1 then none
    else
      let endLine := min e.1 (buffer.length - 1)
      let out := ((List.range' s.1 (endLine + 1 - s.1)).map
        (fun li => selPiece buffer s.1 s.2 e.2 endLine li ++
          if li < endLine then ['\n'] else [])).flatten
      if out = [] then none else some out

/-- Loop invariant of `wrap_spans` relating the wrap state to the chars
consumed so far (`done`): the row being built carries exactly the chars
since the last flush, all offsets are byte lengths of prefixes of `done`,
and the char counts balance. -/
def WrapInv (W : Nat) (done : List Char) (st : WrapSt) : Prop :=
  (∃ flushed, done = flushed ++ plain_text st.current ∧ st.rowByteStart = utf8Len flushed) ∧
  st.charsInRow = (plain_text st.current).length ∧
  st.charsInRow ≤ W ∧
  st.lineByteOffset = utf8Len done ∧
  W * st.rows.length + st.charsInRow = done.length ∧
  (∀ p ∈ st.rows, (plain_text p.1).length ≤ W ∧ ∃ d, (∃ t, d ++ t = done) ∧ p.2 = utf8Len d)

/-! ## Helper lemmas about `flush` and the parser -/

theorem flush_chain (spans : List StyledSpan) (text : List Char) (sty : Style)
    (h : List.Chain' (fun a b => a.style ≠ b.style) spans) :
    List.Chain' (fun a b => a.style ≠ b.style) (flush spans text sty) := by
  unfold flush
  split
  · exact h
  · split
    next s0 heq =>
      have hne : spans ≠ [] := by rintro rfl; simp at heq
      have h1 : spans.getLast hne = s0 := by
        rw [List.getLast?_eq_getLast _ hne] at heq
        exact Option.some.inj heq
      have h2 : spans.dropLast ++ [s0] = spans := by
        rw [← h1]; exact List.dropLast_append_getLast hne
      split
      next hsty =>
        rw [← h2] at h
        rw [List.chain'_append] at h ⊢
        obtain ⟨h3, _, h5⟩ := h
        refine ⟨h3, List.chain'_singleton _, ?_⟩
        intro x hx y hy
        simp only [List.head?_cons, Option.mem_def, Option.some.injEq] at hy
        subst hy
        exact h5 x hx s0 (by simp)
      next hsty =>
        rw [List.chain'_append]
        refine ⟨h, List.chain'_singleton _, ?_⟩
        intro x hx y hy
        simp only [Option.mem_def] at hx
        rw [heq] at hx
        cases hx
        simp only [List.head?_cons, Option.mem_def, Option.some.injEq] at hy
        subst hy
        simpa using hsty
    next heq =>
      have : spans = [] := List.getLast?_eq_none_iff.mp heq
      subst this
      simp

theorem parseAnsiGo_chain (st : AnsiState) (spans : List StyledSpan) (text input : List Char)
    (h : List.Chain' (fun a b => a.style ≠ b.style) spans) :
    List.Chain' (fun a b => a.style ≠ b.style) (parseAnsiGo st spans text input).1 := by
  induction st, spans, text, input using parseAnsiGo.induct with
  | case1 st spans text =>
    simp only [parseAnsiGo]
    exact flush_chain _ _ _ h
  | case2 st spans text =>
    simp only [parseAnsiGo]
    exact flush_chain _ _ _ h
  | case3 st spans text rest r hm ih =>
    have hm2 : (takeCSI rest).2.1 = 'm' := hm
    simp only [parseAnsiGo, Char.reduceEq, reduceIte, hm2]
    exact ih (flush_chain _ _ _ h)
  | case4 st spans text rest r hm ih =>
    have hm2 : ¬(takeCSI rest).2.1 = 'm' := hm
    simp only [parseAnsiGo, Char.reduceEq, reduceIte, if_neg hm2]
    exact ih h
  | case5 st spans text rest hne ih =>
    simp only [parseAnsiGo, Char.reduceEq, reduceIte]
    exact ih h
  | case6 st spans text c rest hd1 hd2 ih =>
    simp only [parseAnsiGo, Char.reduceEq, reduceIte, if_neg hd1, if_neg hd2]
    exact ih h
  | case7 st spans text rest h1 ih =>
    rw [parseAnsiGo.eq_def]
    simp only [Char.reduceEq, reduceIte]
    exact ih h
  | case8 st spans text rest h1 h2 ih =>
    rw [parseAnsiGo.eq_def]
    simp only [Char.reduceEq, reduceIte]
    exact ih h
  | case9 st spans text c rest h1 h2 h3 hctl ih =>
    rw [parseAnsiGo.eq_def]
    simp only [if_neg h1, if_neg h2, if_neg h3, if_pos hctl]
    exact ih h
  | case10 st spans text c rest h1 h2 h3 hctl ih =>
    rw [parseAnsiGo.eq_def]
    simp only [if_neg h1, if_neg h2, if_neg h3, if_neg hctl]
    exact ih h

/-- C9: for every input and starting state, the produced run list never has
two adjacent runs with identical style: same-style text is merged. -/
theorem spec_c9 (input : List Char) (st : AnsiState) :
    List.Chain' (fun a b => a.style ≠ b.style) (parse_ansi input st).1 :=
  parseAnsiGo_chain st [] [] input List.chain'_nil

/-! ## C2: plain-text round trip -/

theorem parseAnsiGo_plain (st : AnsiState) (spans : List StyledSpan) :
    ∀ (input : List Char), (∀ c ∈ input, rustIsControl c = true → c = '\t') →
    ∀ (text : List Char),
    parseAnsiGo st spans text input = (flush spans (text ++ input) st.toStyle, st) := by
  intro input
  induction input with
  | nil => intro _ text; simp [parseAnsiGo]
  | cons c rest ih =>
    intro h text
    have hc : rustIsControl c = true → c = '\t' := h c (by simp)
    have h2 : ∀ x ∈ rest, rustIsControl x = true → x = '\t' := fun x hx => h x (by simp [hx])
    have hesc : ¬c = '\x1b' := by
      intro he; subst he; exact absurd (hc (by decide)) (by decide)
    have hcr : ¬c = '\x0d' := by
      intro he; subst he; exact absurd (hc (by decide)) (by decide)
    have hbs : ¬c = '\x08' := by
      intro he; subst he; exact absurd (hc (by decide)) (by decide)
    have hct : ¬(rustIsControl c = true ∧ c ≠ '\t') := by
      rintro ⟨hc1, hc2⟩; exact hc2 (hc hc1)
    rw [parseAnsiGo.eq_def]
    simp only [if_neg hesc, if_neg hcr, if_neg hbs, if_neg hct]
    rw [ih h2 (text ++ [c])]
    simp

/-- C2 fails as stated: the input consisting of a single carriage return
contains no ESC byte, yet the parser drops it, so the concatenated run text
is empty rather than equal to the input. -/
theorem spec_c2_counterexample :
    ('\x1b' ∉ ['\x0d']) ∧
    ((parse_ansi ['\x0d'] AnsiState.default).1.map StyledSpan.text).flatten ≠ ['\x0d'] := by
  refine ⟨by decide, ?_⟩
  have hp := parseAnsiGo_plain AnsiState.default [] [] (by decide) ['\x0d']
  have h1 : parse_ansi ['\x0d'] AnsiState.default = ([], AnsiState.default) := by
    rw [parse_ansi, parseAnsiGo.eq_def]
    simp only [Char.reduceEq, reduceIte]
    rw [parseAnsiGo.eq_def]
    simp [flush]
  rw [h1]
  decide

/-- C2 (amended): for every input containing no control character other than
tab (in particular no ESC, no carriage return, no backspace), parsing with
the default state yields runs whose concatenated text is exactly the input,
all under the default style. -/
theorem spec_c2 (input : List Char)
    (h : ∀ c ∈ input, rustIsControl c = true → c = '\t') :
    ((parse_ansi input AnsiState.default).1.map StyledSpan.text).flatten = input ∧
    ∀ sp ∈ (parse_ansi input AnsiState.default).1, sp.style = Style.default := by
  have hp := parseAnsiGo_plain AnsiState.default [] input h []
  rw [parse_ansi, hp]
  by_cases hi : input = []
  · subst hi; simp [flush]
  · simp only [flush, List.nil_append, if_neg hi, List.getLast?_nil]
    constructor
    · simp
    · intro sp hsp
      simp only [List.nil_append, List.mem_singleton] at hsp
      subst hsp
      rfl

theorem spec_c2_witness :
    (∀ c ∈ ['H', 'I', '\t'], rustIsControl c = true → c = '\t') ∧
    (((parse_ansi ['H', 'I', '\t'] AnsiState.default).1.map StyledSpan.text).flatten
        = ['H', 'I', '\t'] ∧
      ∀ sp ∈ (parse_ansi ['H', 'I', '\t'] AnsiState.default).1, sp.style = Style.default) :=
  ⟨by decide, spec_c2 ['H', 'I', '\t'] (by decide)⟩

/-! ## Helper lemmas about `splitNL`, eviction and `joinNL` -/

theorem splitNL_noNL (l : List Char) (h : '\n' ∉ l) : splitNL l = ([], l) := by
  induction l with
  | nil => rfl
  | cons c rest ih =>
    have hc : c ≠ '\n' := by intro he; exact h (by simp [he])
    have hr : '\n' ∉ rest := fun hm => h (by simp [hm])
    simp only [splitNL, ih hr, if_neg hc]

theorem mem_of_getLast (l : List α) (x : α) (h : l.getLast? = some x) : x ∈ l := by
  induction l with
  | nil => simp at h
  | cons c rest ih =>
    cases rest with
    | nil => simp_all
    | cons d r2 =>
      rw [List.getLast?_cons_cons] at h
      exact List.mem_cons_of_mem _ (ih h)

theorem splitNL_fst_ne (l : List Char) (h : '\n' ∈ l) : (splitNL l).1 ≠ [] := by
  induction l with
  | nil => simp at h
  | cons c rest ih =>
    by_cases hc : c = '\n'
    · simp [splitNL, hc]
    · have hr : '\n' ∈ rest := by
        rcases List.mem_cons.mp h with h1 | h1
        · exact absurd h1.symm hc
        · exact h1
      simp only [splitNL, if_neg hc]
      rcases he : (splitNL rest).1 with _ | ⟨g, gs⟩
      · exact absurd he (ih hr)
      · simp

theorem splitNL_cons_nl (rest : List Char) :
    splitNL ('\n' :: rest) = ([] :: (splitNL rest).1, (splitNL rest).2) := rfl

theorem splitNL_cons_ne (c : Char) (rest : List Char) (hc : c ≠ '\n') :
    splitNL (c :: rest) =
      (match (splitNL rest).1 with
        | [] => ([], c :: (splitNL rest).2)
        | l :: t => ((c :: l) :: t, (splitNL rest).2)) := by
  conv_lhs => rw [splitNL]
  simp only [if_neg hc]

theorem splitNL_last (l : List Char) (h : l.getLast? = some '\n') : (splitNL l).2 = [] := by
  induction l with
  | nil => simp at h
  | cons c rest ih =>
    cases rest with
    | nil =>
      simp only [List.getLast?_singleton, Option.some.injEq] at h
      subst h
      rfl
    | cons d r2 =>
      rw [List.getLast?_cons_cons] at h
      have h2 := ih h
      by_cases hc : c = '\n'
      · subst hc
        rw [splitNL_cons_nl]
        exact h2
      · have h3 : '\n' ∈ d :: r2 := mem_of_getLast _ _ h
        rw [splitNL_cons_ne c _ hc]
        rcases he : (splitNL (d :: r2)).1 with _ | ⟨g, gs⟩
        · exact absurd he (splitNL_fst_ne _ h3)
        · exact h2

theorem evict_concat_getLast (X : List α) (p : α) :
    (((X ++ [p]).drop ((X ++ [p]).length - MAX_LINES)).getLast? = some p) := by
  have hk : (X ++ [p]).length - MAX_LINES ≤ X.length := by
    simp only [List.length_append, List.length_cons, List.length_nil, MAX_LINES]
    omega
  rw [List.drop_append_of_le_length hk]
  exact List.getLast?_concat _

theorem evict_concat_ne (X : List α) (p : α) :
    ((X ++ [p]).drop ((X ++ [p]).length - MAX_LINES)) ≠ [] := by
  intro he
  have h := evict_concat_getLast X p
  rw [he] at h
  simp at h

theorem getLast?_drop_of_ne (l : List α) (k : Nat) (h : l.drop k ≠ []) :
    (l.drop k).getLast? = l.getLast? := by
  conv_rhs => rw [← List.take_append_drop k l]
  rw [List.getLast?_append]
  cases he : (l.drop k).getLast? with
  | none => exact absurd (List.getLast?_eq_none_iff.mp he) h
  | some x => rfl

theorem joinNL_cons (l : List Char) (x : List Char) (ls : List (List Char)) :
    joinNL (l :: x :: ls) = l ++ '\n' :: joinNL (x :: ls) := rfl

theorem joinNL_concat_empty (w : List (List Char)) (h : w ≠ []) :
    (joinNL (w ++ [[]])).getLast? = some '\n' := by
  induction w with
  | nil => exact absurd rfl h
  | cons x w2 ih =>
    cases w2 with
    | nil =>
      show (joinNL [x, []]).getLast? = some '\n'
      rw [joinNL_cons]
      have : ('\n' :: joinNL [([] : List Char)]) = ['\n'] := rfl
      rw [this, List.getLast?_concat]
    | cons y w3 =>
      have h2 : (joinNL (y :: (w3 ++ [[]]))).getLast? = some '\n' := ih (by simp)
      rw [show ((x :: y :: w3) ++ [[]]) = x :: (y :: (w3 ++ [[]])) from rfl]
      rw [joinNL_cons, List.getLast?_append]
      rcases hJ : joinNL (y :: (w3 ++ [[]])) with _ | ⟨z, J2⟩
      · simp
      · rw [hJ] at h2
        rw [List.getLast?_cons_cons, h2]
        rfl

theorem parse_ansi_nil (st : AnsiState) : parse_ansi [] st = ([], st) := by
  rw [parse_ansi, parseAnsiGo.eq_def]
  simp [flush]

/-! ## C5: eviction keeps the buffer bounded, dropping only the oldest lines -/

/-- C5: after every pump iteration the buffer holds at most `MAX_LINES`
lines; the kept lines are a suffix of the pre-eviction buffer (so exactly
the oldest entries are dropped, preserving the order of the rest), and the
final length is the pre-eviction length truncated to `MAX_LINES`. -/
theorem spec_c5 (clear : Bool) (s : PumpState) (a : List Char) :
    (pumpStep clear s a).lines.length ≤ MAX_LINES ∧
    (∃ k, (pumpStep clear s a).lines = (pumpPre clear s a).drop k) ∧
    (pumpStep clear s a).lines.length = min (pumpPre clear s a).length MAX_LINES := by
  have hl : (pumpStep clear s a).lines
      = (pumpPre clear s a).drop ((pumpPre clear s a).length - MAX_LINES) := by
    simp only [pumpStep]
  refine ⟨?_, ⟨_, hl⟩, ?_⟩
  · rw [hl, List.length_drop]
    have : 0 < MAX_LINES := by decide
    omega
  · rw [hl, List.length_drop]
    omega

/-! ## C6: the partial line never advances the persistent style state -/

theorem pumpPre_shape (s : PumpState) (a : List Char) :
    pumpPre false s a =
      ((if s.pendInBuf ∧ s.lines ≠ [] then s.lines.dropLast else s.lines)
          ++ (parseLines s.ansi (splitNL (s.pend ++ a)).1).1)
        ++ [(parse_ansi (splitNL (s.pend ++ a)).2
              (parseLines s.ansi (splitNL (s.pend ++ a)).1).2).1] := by
  simp [pumpPre, pumpPrep]

/-- C6: when an iteration completes no line (the accumulator plus chunk has
no newline), the persistent SGR state is unchanged, even though the partial
line is parsed (from a copy) and placed at the end of the buffer. -/
theorem spec_c6 (s : PumpState) (a : List Char) (h : '\n' ∉ s.pend ++ a) :
    (pumpStep false s a).ansi = s.ansi ∧
    (pumpStep false s a).lines.getLast? = some (parse_ansi (s.pend ++ a) s.ansi).1 := by
  have hs : splitNL (s.pend ++ a) = ([], s.pend ++ a) := splitNL_noNL _ h
  constructor
  · show (pumpStep false s a).ansi = s.ansi
    simp [pumpStep, pumpPrep, hs, parseLines]
  · have h2 : (pumpStep false s a).lines
        = (pumpPre false s a).drop ((pumpPre false s a).length - MAX_LINES) := by
      simp only [pumpStep]
    rw [h2, pumpPre_shape, hs]
    simp only [parseLines]
    exact evict_concat_getLast _ _

theorem spec_c6_witness :
    ('\n' ∉ (([] : List Char) ++ ['a', 'b'])) ∧
    ((pumpStep false ⟨[], [], false, AnsiState.default⟩ ['a', 'b']).ansi = AnsiState.default ∧
      (pumpStep false ⟨[], [], false, AnsiState.default⟩ ['a', 'b']).lines.getLast?
        = some (parse_ansi (([] : List Char) ++ ['a', 'b']) AnsiState.default).1) :=
  ⟨by decide, spec_c6 ⟨[], [], false, AnsiState.default⟩ ['a', 'b'] (by decide)⟩

/-! ## C4: `capture_since` -/

/-- C4 (amended): when the buffer changes between the mark and the call by a
pure append of new lines (the entry that was last at mark time is untouched
and no eviction occurs), `capture_since` applied to the mark returns exactly
the plain text of the appended lines, newline-joined, and nothing older. In
general the claim fails: the pump replaces the partial-line entry recorded
at mark time, and eviction shifts line indices (see the counterexample). -/
theorem spec_c4 (old new : List (List StyledSpan)) :
    capture_since (old ++ new) old.length = joinNL (new.map plain_text) := by
  simp only [capture_since, List.length_append]
  rw [Nat.min_eq_left (Nat.le_add_right _ _), List.drop_left]

/-- C4 fails as stated: with one (partial) line `"hello"` buffered and the
mark set to the line count 1, feeding `"world\n"` completes the line
`"helloworld"` after the mark, yet `capture_since 1` returns the empty
string, missing that line entirely — because the pump popped the partial
entry at index 0 and re-appended its completed form there. -/
theorem spec_c4_counterexample :
    (pumpStep false ⟨[[⟨['h','e','l','l','o'], Style.default⟩]], ['h','e','l','l','o'], true,
        AnsiState.default⟩ ['w','o','r','l','d','\n']).lines
      = [[⟨['h','e','l','l','o','w','o','r','l','d'], Style.default⟩], []] ∧
    capture_since (pumpStep false ⟨[[⟨['h','e','l','l','o'], Style.default⟩]],
        ['h','e','l','l','o'], true, AnsiState.default⟩ ['w','o','r','l','d','\n']).lines 1
      = [] := by
  have hacc : pumpPrep false ⟨[[⟨['h','e','l','l','o'], Style.default⟩]],
      ['h','e','l','l','o'], true, AnsiState.default⟩ ['w','o','r','l','d','\n']
      = ['h','e','l','l','o','w','o','r','l','d','\n'] := by decide
  have hsp : splitNL ['h','e','l','l','o','w','o','r','l','d','\n']
      = ([['h','e','l','l','o','w','o','r','l','d']], []) := by decide
  have e1 : parse_ansi ['h','e','l','l','o','w','o','r','l','d'] AnsiState.default
      = ([⟨['h','e','l','l','o','w','o','r','l','d'], Style.default⟩], AnsiState.default) := by
    rw [parse_ansi, parseAnsiGo_plain AnsiState.default [] _ (by decide) []]
    simp [flush, AnsiState.toStyle, AnsiState.default, Style.default]
  have hlines : (pumpStep false ⟨[[⟨['h','e','l','l','o'], Style.default⟩]],
      ['h','e','l','l','o'], true, AnsiState.default⟩ ['w','o','r','l','d','\n']).lines
      = [[⟨['h','e','l','l','o','w','o','r','l','d'], Style.default⟩], []] := by
    simp [pumpStep, pumpPre, hacc, hsp, parseLines, e1, parse_ansi_nil, MAX_LINES]
  refine ⟨hlines, ?_⟩
  rw [hlines]
  decide

/-! ## C10: the buffer always ends with the current (possibly empty) partial line -/

/-- C10: every pump iteration leaves a non-empty buffer whose last entry is
the freshly parsed partial line; when the processed data ends in a newline
that entry is an empty line, which `line_count` counts and which
`visible_text` includes as a trailing newline in its output. -/
theorem spec_c10 (s : PumpState) (a : List Char) (n : Nat) :
    (pumpStep false s a).lines ≠ [] ∧
    ((s.pend ++ a).getLast? = some '\n' →
      (pumpStep false s a).lines.getLast? = some [] ∧
      (2 ≤ n → 2 ≤ line_count (pumpStep false s a).lines →
        (visible_text (pumpStep false s a).lines n).getLast? = some '\n')) := by
  have hl : (pumpStep false s a).lines
      = (pumpPre false s a).drop ((pumpPre false s a).length - MAX_LINES) := by
    simp only [pumpStep]
  constructor
  · rw [hl, pumpPre_shape]
    exact evict_concat_ne _ _
  · intro hnl
    have hsp : (splitNL (s.pend ++ a)).2 = [] := splitNL_last _ hnl
    have hlast : (pumpStep false s a).lines.getLast? = some [] := by
      rw [hl, pumpPre_shape, hsp, parse_ansi_nil]
      exact evict_concat_getLast _ _
    refine ⟨hlast, ?_⟩
    intro hn2 hlen2
    simp only [line_count] at hlen2
    simp only [visible_text]
    set L := (pumpStep false s a).lines with hLdef
    have hwlen : (L.drop (L.length - n)).length = min n L.length := by
      rw [List.length_drop]; omega
    have hwne : L.drop (L.length - n) ≠ [] := by
      intro he
      have hc := congrArg List.length he
      rw [hwlen] at hc
      simp only [List.length_nil] at hc
      have h2 : 2 ≤ min n L.length := le_min hn2 hlen2
      omega
    have hwlast : (L.drop (L.length - n)).getLast? = some [] := by
      rw [getLast?_drop_of_ne _ _ hwne]
      exact hlast
    set W := L.drop (L.length - n) with hWdef
    have hglast : W.getLast hwne = [] := by
      have hg := List.getLast?_eq_getLast W hwne
      rw [hwlast] at hg
      exact (Option.some.inj hg).symm
    have hWd : W = W.dropLast ++ [[]] := by
      conv_lhs => rw [← List.dropLast_append_getLast hwne]
      rw [hglast]
    have hdne : W.dropLast ≠ [] := by
      intro he
      have h1 : W.length = 1 := by rw [hWd, he]; rfl
      have h2 : 2 ≤ W.length := by rw [hwlen]; exact le_min hn2 hlen2
      omega
    rw [hWd, List.map_append]
    have hmap : ([([] : List StyledSpan)].map plain_text) = [[]] := rfl
    rw [hmap]
    apply joinNL_concat_empty
    intro he
    rcases hW2 : W.dropLast with _ | ⟨x, t⟩
    · exact hdne hW2
    · rw [hW2] at he
      simp at he

theorem spec_c10_witness :
    ((([] : List Char) ++ ['h', 'i', '\n']).getLast? = some '\n') ∧
    (pumpStep false ⟨[], [], false, AnsiState.default⟩ ['h', 'i', '\n']).lines ≠ [] ∧
    (pumpStep false ⟨[], [], false, AnsiState.default⟩ ['h', 'i', '\n']).lines.getLast?
      = some [] ∧
    (visible_text (pumpStep false ⟨[], [], false, AnsiState.default⟩
        ['h', 'i', '\n']).lines 2).getLast? = some '\n' := by
  have h := spec_c10 ⟨[], [], false, AnsiState.default⟩ ['h', 'i', '\n'] 2
  have hacc : pumpPrep false ⟨[], [], false, AnsiState.default⟩ ['h', 'i', '\n']
      = ['h', 'i', '\n'] := by decide
  have hsp : splitNL ['h', 'i', '\n'] = ([['h', 'i']], []) := by decide
  have e1 : parse_ansi ['h', 'i'] AnsiState.default
      = ([⟨['h', 'i'], Style.default⟩], AnsiState.default) := by
    rw [parse_ansi, parseAnsiGo_plain AnsiState.default [] _ (by decide) []]
    simp [flush, AnsiState.toStyle, AnsiState.default, Style.default]
  have hlines : (pumpStep false ⟨[], [], false, AnsiState.default⟩ ['h', 'i', '\n']).lines
      = [[⟨['h', 'i'], Style.default⟩], []] := by
    simp [pumpStep, pumpPre, hacc, hsp, parseLines, e1, parse_ansi_nil, MAX_LINES]
  obtain ⟨h1, h2⟩ := h
  obtain ⟨h3, h4⟩ := h2 (by decide)
  refine ⟨by decide, h1, h3, h4 (by decide) ?_⟩
  simp only [line_count, hlines]
  decide

/-! ## C1: chunk-boundary invariance of the pump -/

theorem splitNL_append (a b : List Char) :
    splitNL (a ++ b) =
      ((splitNL a).1 ++ (splitNL ((splitNL a).2 ++ b)).1,
        (splitNL ((splitNL a).2 ++ b)).2) := by
  induction a with
  | nil => simp [splitNL]
  | cons c a2 ih =>
    by_cases hc : c = '\n'
    · subst hc
      rw [List.cons_append, splitNL_cons_nl, splitNL_cons_nl, ih]
      simp
    · rw [List.cons_append, splitNL_cons_ne c _ hc, splitNL_cons_ne c _ hc, ih]
      rcases hA : (splitNL a2).1 with _ | ⟨l, t⟩
      · rw [List.nil_append, List.cons_append, splitNL_cons_ne c _ hc]
        rcases hB : (splitNL ((splitNL a2).2 ++ b)).1 with _ | ⟨g, gs⟩
        · rfl
        · rfl
      · rfl

theorem parseLines_append (xs ys : List (List Char)) (st : AnsiState) :
    parseLines st (xs ++ ys) =
      ((parseLines st xs).1 ++ (parseLines (parseLines st xs).2 ys).1,
        (parseLines (parseLines st xs).2 ys).2) := by
  induction xs generalizing st with
  | nil => simp [parseLines]
  | cons l ls ih =>
    rw [List.cons_append]
    simp only [parseLines]
    rw [ih]
    simp

theorem evict_dropLast (X : List α) (p : α) :
    ((X ++ [p]).drop ((X ++ [p]).length - MAX_LINES)).dropLast
      = X.drop (X.length + 1 - MAX_LINES) := by
  have hlen : (X ++ [p]).length = X.length + 1 := by simp
  rw [hlen]
  have hk : X.length + 1 - MAX_LINES ≤ X.length := by
    have hM : MAX_LINES = 2000 := rfl
    omega
  rw [List.drop_append_of_le_length hk, List.dropLast_concat]

theorem evict_step (X Y : List α) (hY : Y ≠ []) :
    (X.drop (X.length + 1 - MAX_LINES) ++ Y).drop
        ((X.drop (X.length + 1 - MAX_LINES) ++ Y).length - MAX_LINES)
      = (X ++ Y).drop ((X ++ Y).length - MAX_LINES) := by
  have hM : MAX_LINES = 2000 := rfl
  have hq : 1 ≤ Y.length := List.length_pos.mpr hY
  simp only [List.length_append, List.length_drop]
  by_cases hn : X.length + 1 ≤ MAX_LINES
  · have h0 : X.length + 1 - MAX_LINES = 0 := by omega
    rw [h0]
    simp only [Nat.sub_zero, List.drop_zero]
  · have hj : X.length - (X.length + 1 - MAX_LINES) = MAX_LINES - 1 := by omega
    rw [hj]
    by_cases hqM : Y.length ≤ MAX_LINES
    · have hd1 : MAX_LINES - 1 + Y.length - MAX_LINES = Y.length - 1 := by omega
      rw [hd1]
      have hle : Y.length - 1 ≤ (X.drop (X.length + 1 - MAX_LINES)).length := by
        rw [List.length_drop]; omega
      rw [List.drop_append_of_le_length hle]
      have hle2 : X.length + Y.length - MAX_LINES ≤ X.length := by omega
      rw [List.drop_append_of_le_length hle2]
      rw [List.drop_drop]
      have heq : X.length + 1 - MAX_LINES + (Y.length - 1)
          = X.length + Y.length - MAX_LINES := by omega
      rw [heq]
    · have hd1 : MAX_LINES - 1 + Y.length - MAX_LINES
          = (X.drop (X.length + 1 - MAX_LINES)).length + (Y.length - MAX_LINES) := by
        rw [List.length_drop]; omega
      rw [hd1, List.drop_append]
      have hd2 : X.length + Y.length - MAX_LINES = X.length + (Y.length - MAX_LINES) := by
        omega
      rw [hd2, List.drop_append]

theorem evict_step3 (P CA2 CB2 : List α) (p : α) :
    (((P ++ CA2).drop ((P ++ CA2).length + 1 - MAX_LINES) ++ CB2) ++ [p]).drop
        ((((P ++ CA2).drop ((P ++ CA2).length + 1 - MAX_LINES) ++ CB2) ++ [p]).length
          - MAX_LINES)
      = ((P ++ (CA2 ++ CB2)) ++ [p]).drop
          (((P ++ (CA2 ++ CB2)) ++ [p]).length - MAX_LINES) := by
  have e1 : ((P ++ CA2).drop ((P ++ CA2).length + 1 - MAX_LINES) ++ CB2) ++ [p]
      = (P ++ CA2).drop ((P ++ CA2).length + 1 - MAX_LINES) ++ (CB2 ++ [p]) :=
    List.append_assoc _ _ _
  have e2 : (P ++ (CA2 ++ CB2)) ++ [p] = (P ++ CA2) ++ (CB2 ++ [p]) := by
    simp [List.append_assoc]
  rw [e1, e2]
  exact evict_step (P ++ CA2) (CB2 ++ [p]) (by simp)

theorem pumpStep_lines (c : Bool) (s : PumpState) (x : List Char) :
    (pumpStep c s x).lines
      = (pumpPre c s x).drop ((pumpPre c s x).length - MAX_LINES) := by
  simp only [pumpStep]

theorem pumpStep_pend (c : Bool) (s : PumpState) (x : List Char) :
    (pumpStep c s x).pend = (splitNL (pumpPrep c s x)).2 := by
  simp only [pumpStep]

theorem pumpStep_pendInBuf (c : Bool) (s : PumpState) (x : List Char) :
    (pumpStep c s x).pendInBuf = true := by
  simp only [pumpStep]

theorem pumpStep_ansi (c : Bool) (s : PumpState) (x : List Char) :
    (pumpStep c s x).ansi
      = (parseLines (if c then AnsiState.default else s.ansi)
          (splitNL (pumpPrep c s x)).1).2 := by
  simp only [pumpStep]

theorem pumpStep_ansi_false (s : PumpState) (x : List Char) :
    (pumpStep false s x).ansi = (parseLines s.ansi (splitNL (s.pend ++ x)).1).2 := by
  simp [pumpStep, pumpPrep]

/-- C1: chunk-boundary invariance of the reader loop. Feeding two chunks in
sequence yields exactly the same pump state — buffer of styled runs,
carried-over accumulator (which holds the bytes of any unfinished escape
sequence) and persistent SGR state — as feeding their concatenation in one
call; in particular a split escape/SGR sequence produces identical output. -/
theorem spec_c1 (s : PumpState) (a b : List Char) :
    pumpStep false (pumpStep false s a) b = pumpStep false s (a ++ b) := by
  have hprepA : pumpPrep false s a = s.pend ++ a := by simp [pumpPrep]
  have hprepAB : pumpPrep false s (a ++ b) = (s.pend ++ a) ++ b := by
    simp [pumpPrep]
  have hpendA : (pumpStep false s a).pend = (splitNL (s.pend ++ a)).2 := by
    rw [pumpStep_pend, hprepA]
  have hansiA : (pumpStep false s a).ansi
      = (parseLines s.ansi (splitNL (s.pend ++ a)).1).2 :=
    pumpStep_ansi_false s a
  have hprepB : pumpPrep false (pumpStep false s a) b
      = (splitNL (s.pend ++ a)).2 ++ b := by
    simp [pumpPrep, hpendA]
  have hpibA : (pumpStep false s a).pendInBuf = true := pumpStep_pendInBuf _ _ _
  have hlinesA := pumpStep_lines false s a
  have hne1 : (pumpStep false s a).lines ≠ [] := by
    rw [hlinesA, pumpPre_shape]
    exact evict_concat_ne _ _
  have hsplit := splitNL_append (s.pend ++ a) b
  have hPL := parseLines_append (splitNL (s.pend ++ a)).1
    (splitNL ((splitNL (s.pend ++ a)).2 ++ b)).1 s.ansi
  have hcond : ((pumpStep false s a).pendInBuf ∧ (pumpStep false s a).lines ≠ []) :=
    ⟨hpibA, hne1⟩
  have hdlA : (pumpStep false s a).lines.dropLast
      = ((if s.pendInBuf ∧ s.lines ≠ [] then s.lines.dropLast else s.lines)
            ++ (parseLines s.ansi (splitNL (s.pend ++ a)).1).1).drop
          (((if s.pendInBuf ∧ s.lines ≠ [] then s.lines.dropLast else s.lines)
            ++ (parseLines s.ansi (splitNL (s.pend ++ a)).1).1).length + 1
            - MAX_LINES) := by
    rw [hlinesA, pumpPre_shape]
    exact evict_dropLast _ _
  have epend : (pumpStep false (pumpStep false s a) b).pend
      = (pumpStep false s (a ++ b)).pend := by
    rw [pumpStep_pend false (pumpStep false s a) b, pumpStep_pend false s (a ++ b),
        hprepB, hprepAB, hsplit]
  have eansi : (pumpStep false (pumpStep false s a) b).ansi
      = (pumpStep false s (a ++ b)).ansi := by
    rw [pumpStep_ansi_false (pumpStep false s a) b, pumpStep_ansi_false s (a ++ b),
        hpendA, hansiA, ← List.append_assoc s.pend a b]
    simp only [hsplit, hPL]
  have epib : (pumpStep false (pumpStep false s a) b).pendInBuf
      = (pumpStep false s (a ++ b)).pendInBuf := by
    rw [pumpStep_pendInBuf, pumpStep_pendInBuf]
  have elines : (pumpStep false (pumpStep false s a) b).lines
      = (pumpStep false s (a ++ b)).lines := by
    rw [pumpStep_lines false (pumpStep false s a) b, pumpStep_lines false s (a ++ b),
        pumpPre_shape (pumpStep false s a) b, pumpPre_shape s (a ++ b),
        if_pos hcond, hpendA, hansiA, hdlA, ← List.append_assoc s.pend a b]
    simp only [hsplit, hPL]
    exact evict_step3 _ _ _ _
  cases hu : pumpStep false (pumpStep false s a) b with
  | mk l1 p1 b1 a1 =>
    cases hv : pumpStep false s (a ++ b) with
    | mk l2 p2 b2 a2 =>
      rw [hu, hv] at elines epend epib eansi
      simp only at elines epend epib eansi
      rw [elines, epend, epib, eansi]

/-! ## C7 and C3: `wrap_spans` row counts and byte-offset boundaries -/

theorem utf8Len_append (x y : List Char) : utf8Len (x ++ y) = utf8Len x + utf8Len y := by
  simp [utf8Len]

theorem plain_text_append (l1 l2 : List StyledSpan) :
    plain_text (l1 ++ l2) = plain_text l1 ++ plain_text l2 := by
  simp [plain_text]

theorem plain_text_single (t : List Char) (sty : Style) :
    plain_text [⟨t, sty⟩] = t := by
  simp [plain_text]

theorem plain_text_nil : plain_text [] = [] := rfl

theorem wrapOne_nil (w1 : Nat) (style : Style) (st : WrapSt) :
    wrapOne w1 style st [] = st := by
  simp [wrapOne]

theorem wrapOne_fit (w1 : Nat) (style : Style) (st : WrapSt) (r : List Char)
    (h1 : ¬r = []) (h2 : r.length ≤ (w1 + 1) - st.charsInRow) :
    wrapOne w1 style st r =
      { st with current := st.current ++ [⟨r, style⟩],
                charsInRow := st.charsInRow + r.length,
                lineByteOffset := st.lineByteOffset + utf8Len r } := by
  conv_lhs => rw [wrapOne]
  simp only [if_neg h1, if_pos h2]

theorem wrapOne_split (w1 : Nat) (style : Style) (st : WrapSt) (r : List Char)
    (h1 : ¬r = []) (h2 : ¬r.length ≤ (w1 + 1) - st.charsInRow) :
    wrapOne w1 style st r = wrapOne w1 style
      { rows := st.rows ++
          [((if r.take ((w1 + 1) - st.charsInRow) = [] then st.current
             else st.current ++ [⟨r.take ((w1 + 1) - st.charsInRow), style⟩]),
            st.rowByteStart)],
        current := [], charsInRow := 0,
        lineByteOffset := st.lineByteOffset + utf8Len (r.take ((w1 + 1) - st.charsInRow)),
        rowByteStart := st.lineByteOffset + utf8Len (r.take ((w1 + 1) - st.charsInRow)) }
      (r.drop ((w1 + 1) - st.charsInRow)) := by
  conv_lhs => rw [wrapOne]
  simp only [if_neg h1, if_neg h2]

theorem wrapOne_inv (w1 : Nat) (style : Style) (st : WrapSt) (r : List Char) :
    ∀ done, WrapInv (w1 + 1) done st →
      WrapInv (w1 + 1) (done ++ r) (wrapOne w1 style st r) := by
  induction st, r using wrapOne.induct w1 style with
  | case1 st =>
    intro done h
    rw [wrapOne_nil, List.append_nil]
    exact h
  | case2 st r hne capacity hle =>
    intro done h
    obtain ⟨⟨flushed, hf1, hf2⟩, h2, h3, h4, h5, h6⟩ := h
    have hle2 : r.length ≤ (w1 + 1) - st.charsInRow := hle
    rw [wrapOne_fit w1 style st r hne hle2]
    refine ⟨⟨flushed, ?_, ?_⟩, ?_, ?_, ?_, ?_, ?_⟩
    · show done ++ r = flushed ++ plain_text (st.current ++ [⟨r, style⟩])
      rw [plain_text_append, plain_text_single, hf1, List.append_assoc]
    · exact hf2
    · show st.charsInRow + r.length = (plain_text (st.current ++ [⟨r, style⟩])).length
      rw [plain_text_append, plain_text_single, List.length_append, h2]
    · show st.charsInRow + r.length ≤ w1 + 1
      omega
    · show st.lineByteOffset + utf8Len r = utf8Len (done ++ r)
      rw [h4, utf8Len_append]
    · show (w1 + 1) * st.rows.length + (st.charsInRow + r.length) = (done ++ r).length
      rw [List.length_append]
      omega
    · intro p hp
      obtain ⟨hlen, d, ⟨t, hdt⟩, hoff⟩ := h6 p hp
      exact ⟨hlen, d, ⟨t ++ r, by rw [← List.append_assoc, hdt]⟩, hoff⟩
  | case3 st r hne capacity hgt hd cur2 lbo2 ih =>
    intro done h
    obtain ⟨⟨flushed, hf1, hf2⟩, h2, h3, h4, h5, h6⟩ := h
    have hgt2 : ¬r.length ≤ (w1 + 1) - st.charsInRow := hgt
    rw [wrapOne_split w1 style st r hne hgt2]
    have hcap : (w1 + 1) - st.charsInRow ≤ r.length := by omega
    have hheadlen : (r.take ((w1 + 1) - st.charsInRow)).length
        = (w1 + 1) - st.charsInRow := by
      rw [List.length_take]
      omega
    have hinv2 : WrapInv (w1 + 1) (done ++ r.take ((w1 + 1) - st.charsInRow))
        { rows := st.rows ++
            [((if r.take ((w1 + 1) - st.charsInRow) = [] then st.current
               else st.current ++ [⟨r.take ((w1 + 1) - st.charsInRow), style⟩]),
              st.rowByteStart)],
          current := [], charsInRow := 0,
          lineByteOffset := st.lineByteOffset + utf8Len (r.take ((w1 + 1) - st.charsInRow)),
          rowByteStart := st.lineByteOffset + utf8Len (r.take ((w1 + 1) - st.charsInRow)) } := by
      have hplain : plain_text (if r.take ((w1 + 1) - st.charsInRow) = [] then st.current
          else st.current ++ [⟨r.take ((w1 + 1) - st.charsInRow), style⟩])
          = plain_text st.current ++ r.take ((w1 + 1) - st.charsInRow) := by
        split
        next hh => rw [hh, List.append_nil]
        next => rw [plain_text_append, plain_text_single]
      refine ⟨⟨done ++ r.take ((w1 + 1) - st.charsInRow), ?_, ?_⟩, ?_, ?_, ?_, ?_, ?_⟩
      · show done ++ r.take ((w1 + 1) - st.charsInRow)
            = (done ++ r.take ((w1 + 1) - st.charsInRow)) ++ plain_text []
        rw [plain_text_nil, List.append_nil]
      · show st.lineByteOffset + utf8Len (r.take ((w1 + 1) - st.charsInRow))
            = utf8Len (done ++ r.take ((w1 + 1) - st.charsInRow))
        rw [h4, utf8Len_append]
      · show 0 = (plain_text []).length
        rfl
      · show 0 ≤ w1 + 1
        omega
      · show st.lineByteOffset + utf8Len (r.take ((w1 + 1) - st.charsInRow))
            = utf8Len (done ++ r.take ((w1 + 1) - st.charsInRow))
        rw [h4, utf8Len_append]
      · show (w1 + 1) * (st.rows ++
            [((if r.take ((w1 + 1) - st.charsInRow) = [] then st.current
               else st.current ++ [⟨r.take ((w1 + 1) - st.charsInRow), style⟩]),
              st.rowByteStart)]).length + 0
            = (done ++ r.take ((w1 + 1) - st.charsInRow)).length
        rw [List.length_append, List.length_append, hheadlen]
        simp only [List.length_cons, List.length_nil]
        rw [Nat.mul_add, Nat.mul_one]
        omega
      · intro p hp
        rcases List.mem_append.mp hp with hp1 | hp2
        · obtain ⟨hlen, d, ⟨t, hdt⟩, hoff⟩ := h6 p hp1
          exact ⟨hlen, d, ⟨t ++ r.take ((w1 + 1) - st.charsInRow),
            by rw [← List.append_assoc, hdt]⟩, hoff⟩
        · simp only [List.mem_singleton] at hp2
          subst hp2
          refine ⟨?_, flushed, ⟨plain_text st.current ++ r.take ((w1 + 1) - st.charsInRow),
            by rw [← List.append_assoc, ← hf1]⟩, hf2⟩
          show (plain_text (if r.take ((w1 + 1) - st.charsInRow) = [] then st.current
              else st.current ++ [⟨r.take ((w1 + 1) - st.charsInRow), style⟩])).length ≤ w1 + 1
          rw [hplain, List.length_append, hheadlen]
          omega
    have hres := ih (done ++ r.take ((w1 + 1) - st.charsInRow)) hinv2
    rw [List.append_assoc, List.take_append_drop] at hres
    exact hres

theorem wrapOne_cir (w1 : Nat) (style : Style) (st : WrapSt) (r : List Char) :
    r ≠ [] → 1 ≤ (wrapOne w1 style st r).charsInRow := by
  induction st, r using wrapOne.induct w1 style with
  | case1 st => intro h; exact absurd rfl h
  | case2 st r hne capacity hle =>
    intro _
    have hle2 : r.length ≤ (w1 + 1) - st.charsInRow := hle
    rw [wrapOne_fit w1 style st r hne hle2]
    have : 1 ≤ r.length := List.length_pos.mpr hne
    show 1 ≤ st.charsInRow + r.length
    omega
  | case3 st r hne capacity hgt hd cur2 lbo2 ih =>
    intro _
    have hgt2 : ¬r.length ≤ (w1 + 1) - st.charsInRow := hgt
    rw [wrapOne_split w1 style st r hne hgt2]
    apply ih
    intro hdrop
    have := congrArg List.length hdrop
    rw [List.length_drop] at this
    simp only [List.length_nil] at this
    omega

theorem wrapGo_inv (w1 : Nat) (spans : List StyledSpan) :
    ∀ st done, WrapInv (w1 + 1) done st →
      WrapInv (w1 + 1) (done ++ plain_text spans) (wrapGo w1 spans st) := by
  induction spans with
  | nil =>
    intro st done h
    show WrapInv (w1 + 1) (done ++ plain_text []) st
    rw [plain_text_nil, List.append_nil]
    exact h
  | cons sp rest ih =>
    intro st done h
    have h1 := wrapOne_inv w1 sp.style st sp.text done h
    have h2 := ih _ _ h1
    have hp : plain_text (sp :: rest) = sp.text ++ plain_text rest := by simp [plain_text]
    rw [hp, ← List.append_assoc]
    exact h2

theorem wrapGo_empty (w1 : Nat) : ∀ (spans : List StyledSpan), plain_text spans = [] →
    ∀ st, wrapGo w1 spans st = st := by
  intro spans
  induction spans with
  | nil => intro _ st; rfl
  | cons sp rest ih =>
    intro h st
    have hsp : sp.text = [] ∧ plain_text rest = [] := by
      have h0 : sp.text ++ plain_text rest = [] := by
        have hp : plain_text (sp :: rest) = sp.text ++ plain_text rest := by
          simp [plain_text]
        rw [← hp]; exact h
      exact List.append_eq_nil.mp h0
    show wrapGo w1 rest (wrapOne w1 sp.style st sp.text) = st
    rw [hsp.1, wrapOne_nil]
    exact ih hsp.2 st

theorem wrapGo_cir (w1 : Nat) : ∀ (spans : List StyledSpan), plain_text spans ≠ [] →
    ∀ st, 1 ≤ (wrapGo w1 spans st).charsInRow := by
  intro spans
  induction spans with
  | nil => intro h st; exact absurd plain_text_nil h
  | cons sp rest ih =>
    intro h st
    have hp : plain_text (sp :: rest) = sp.text ++ plain_text rest := by simp [plain_text]
    by_cases hr : plain_text rest = []
    · have hsp : sp.text ≠ [] := by
        intro he
        apply h
        rw [hp, he, hr]
        rfl
      show 1 ≤ (wrapGo w1 rest (wrapOne w1 sp.style st sp.text)).charsInRow
      rw [wrapGo_empty w1 rest hr]
      exact wrapOne_cir w1 sp.style st sp.text hsp
    · exact ih hr _

theorem wrapInv_init (W : Nat) : WrapInv W [] ⟨[], [], 0, 0, 0⟩ := by
  refine ⟨⟨[], ?_, ?_⟩, ?_, ?_, ?_, ?_, ?_⟩ <;> simp [plain_text, utf8Len]

theorem wrapInv_final (spans : List StyledSpan) (W : Nat) (hW : ¬W = 0) :
    WrapInv W (plain_text spans) (wrapGo (W - 1) spans ⟨[], [], 0, 0, 0⟩) := by
  have hw1 : W - 1 + 1 = W := by omega
  have h0 : WrapInv (W - 1 + 1) [] ⟨[], [], 0, 0, 0⟩ := by
    rw [hw1]; exact wrapInv_init W
  have h1 := wrapGo_inv (W - 1) spans ⟨[], [], 0, 0, 0⟩ [] h0
  rw [hw1] at h1
  simpa using h1

/-- C7: at every width `W ≥ 1`, wrapping a line of exactly `k*W` scalar
values (for `k ≥ 1`) yields exactly `k` visual rows, each holding at most
`W` scalar values, and a zero-length line yields exactly one empty row. -/
theorem spec_c7 (spans : List StyledSpan) (W k : Nat) (hW : 1 ≤ W)
    (hlen : (plain_text spans).length = k * W) :
    (1 ≤ k → (wrap_spans spans W).length = k ∧
      ∀ p ∈ wrap_spans spans W, (plain_text p.1).length ≤ W) ∧
    ((plain_text spans).length = 0 → wrap_spans spans W = [([], 0)]) := by
  have hW0 : ¬W = 0 := by omega
  have hws : wrap_spans spans W = (wrapGo (W - 1) spans ⟨[], [], 0, 0, 0⟩).rows
      ++ [((wrapGo (W - 1) spans ⟨[], [], 0, 0, 0⟩).current,
           (wrapGo (W - 1) spans ⟨[], [], 0, 0, 0⟩).rowByteStart)] := by
    simp only [wrap_spans, if_neg hW0]
  constructor
  · intro hk
    obtain ⟨⟨flushed, hf1, hf2⟩, h2, h3, h4, h5, h6⟩ := wrapInv_final spans W hW0
    have hcir : 1 ≤ (wrapGo (W - 1) spans ⟨[], [], 0, 0, 0⟩).charsInRow := by
      apply wrapGo_cir
      intro he
      rw [he] at hlen
      simp only [List.length_nil] at hlen
      rcases Nat.mul_eq_zero.mp hlen.symm with h | h <;> omega
    obtain ⟨j, rfl⟩ : ∃ j, k = j + 1 := ⟨k - 1, by omega⟩
    rw [hlen] at h5
    have e1 : W * (wrapGo (W - 1) spans ⟨[], [], 0, 0, 0⟩).rows.length
        + (wrapGo (W - 1) spans ⟨[], [], 0, 0, 0⟩).charsInRow = W * j + W := by
      calc W * (wrapGo (W - 1) spans ⟨[], [], 0, 0, 0⟩).rows.length
          + (wrapGo (W - 1) spans ⟨[], [], 0, 0, 0⟩).charsInRow
          = (j + 1) * W := h5
        _ = W * j + W := by ring
    have hle : W * j ≤ W * (wrapGo (W - 1) spans ⟨[], [], 0, 0, 0⟩).rows.length := by
      omega
    have hlt : W * (wrapGo (W - 1) spans ⟨[], [], 0, 0, 0⟩).rows.length < W * (j + 1) := by
      have e2 : W * (j + 1) = W * j + W := by ring
      omega
    have hj1 : j ≤ (wrapGo (W - 1) spans ⟨[], [], 0, 0, 0⟩).rows.length :=
      Nat.le_of_mul_le_mul_left hle (by omega)
    have hj2 : (wrapGo (W - 1) spans ⟨[], [], 0, 0, 0⟩).rows.length < j + 1 :=
      Nat.lt_of_mul_lt_mul_left hlt
    constructor
    · rw [hws, List.length_append]
      simp only [List.length_cons, List.length_nil]
      omega
    · intro p hp
      rw [hws] at hp
      rcases List.mem_append.mp hp with hp1 | hp2
      · exact (h6 p hp1).1
      · simp only [List.mem_singleton] at hp2
        subst hp2
        show (plain_text (wrapGo (W - 1) spans ⟨[], [], 0, 0, 0⟩).current).length ≤ W
        rw [← h2]
        exact h3
  · intro h0
    have hpe : plain_text spans = [] := List.length_eq_zero.mp h0
    rw [hws, wrapGo_empty (W - 1) spans hpe]
    rfl

theorem spec_c7_witness :
    1 ≤ 2 ∧ (plain_text [⟨['a', 'b', 'c', 'd'], Style.default⟩]).length = 2 * 2 ∧
    ((1 ≤ 2 → (wrap_spans [⟨['a', 'b', 'c', 'd'], Style.default⟩] 2).length = 2 ∧
        ∀ p ∈ wrap_spans [⟨['a', 'b', 'c', 'd'], Style.default⟩] 2,
          (plain_text p.1).length ≤ 2) ∧
      ((plain_text [⟨['a', 'b', 'c', 'd'], Style.default⟩]).length = 0 →
        wrap_spans [⟨['a', 'b', 'c', 'd'], Style.default⟩] 2 = [([], 0)])) :=
  ⟨by decide, by decide,
    spec_c7 [⟨['a', 'b', 'c', 'd'], Style.default⟩] 2 2 (by decide) (by decide)⟩

theorem boundary_of_prefix (text d : List Char) (h : ∃ t, d ++ t = text) :
    IsBoundary text (utf8Len d) := by
  obtain ⟨t, rfl⟩ := h
  show utf8Len d ∈ byteBoundaries (d ++ t)
  simp only [byteBoundaries, List.mem_map, List.mem_range]
  refine ⟨d.length, ?_, ?_⟩
  · rw [List.length_append]
    omega
  · rw [List.take_left]

theorem boundary_take (text : List Char) (m : Nat) :
    IsBoundary text (utf8Len (text.take m)) :=
  boundary_of_prefix text (text.take m) ⟨text.drop m, List.take_append_drop m text⟩

theorem charIdxAt_utf8Len (text : List Char) : ∀ i, i ≤ text.length →
    charIdxAt text (utf8Len (text.take i)) = i := by
  induction text with
  | nil =>
    intro i hi
    have h0 : i = 0 := by simpa using hi
    subst h0
    rfl
  | cons c r ih =>
    intro i hi
    cases i with
    | zero =>
      show charIdxAt (c :: r) (utf8Len []) = 0
      have h0 : utf8Len [] = 0 := rfl
      rw [h0, charIdxAt]
      simp
    | succ j =>
      have hj : j ≤ r.length := by simpa using hi
      have htake : (c :: r).take (j + 1) = c :: r.take j := rfl
      rw [htake]
      have hlen : utf8Len (c :: r.take j) = c.utf8Size + utf8Len (r.take j) := by
        simp [utf8Len]
      rw [hlen, charIdxAt]
      have hpos : 0 < c.utf8Size := Char.utf8Size_pos c
      have hcond : 0 < c.utf8Size + utf8Len (r.take j) ∧
          c.utf8Size ≤ c.utf8Size + utf8Len (r.take j) := ⟨by omega, by omega⟩
      rw [if_pos hcond]
      have hsub : c.utf8Size + utf8Len (r.take j) - c.utf8Size = utf8Len (r.take j) := by
        omega
      rw [hsub, ih j hj]
      omega

/-- C3: every byte offset surfaced at the interface lies on a UTF-8
scalar-value boundary of the logical line's plain text: the row-start
offsets produced by `wrap_spans`, and the offset `screen_to_buf` computes
from a visual row's (boundary) start plus a char-counted column. -/
theorem spec_c3 (spans : List StyledSpan) (width : Nat) (text : List Char)
    (rbs col : Nat) (hb : IsBoundary text rbs) :
    (∀ p ∈ wrap_spans spans width, IsBoundary (plain_text spans) p.2) ∧
    IsBoundary text (screen_to_buf_byte text rbs col) := by
  constructor
  · intro p hp
    by_cases hw : width = 0
    · subst hw
      simp [wrap_spans] at hp
      subst hp
      have h0 := boundary_of_prefix (plain_text spans) [] ⟨plain_text spans, rfl⟩
      simpa [utf8Len] using h0
    · obtain ⟨⟨flushed, hf1, hf2⟩, h2, h3, h4, h5, h6⟩ := wrapInv_final spans width hw
      simp only [wrap_spans, if_neg hw] at hp
      rcases List.mem_append.mp hp with hp1 | hp2
      · obtain ⟨hlen, d, hpre, hoff⟩ := h6 p hp1
        rw [hoff]
        exact boundary_of_prefix _ _ hpre
      · simp only [List.mem_singleton] at hp2
        subst hp2
        show IsBoundary (plain_text spans)
          (wrapGo (width - 1) spans ⟨[], [], 0, 0, 0⟩).rowByteStart
        rw [hf2]
        exact boundary_of_prefix _ _
          ⟨plain_text (wrapGo (width - 1) spans ⟨[], [], 0, 0, 0⟩).current, hf1.symm⟩
  · obtain ⟨i, hi, hoff⟩ : ∃ i, i < text.length + 1 ∧ utf8Len (text.take i) = rbs := by
      simpa [IsBoundary, byteBoundaries, List.mem_map, List.mem_range] using hb
    simp only [screen_to_buf_byte]
    rw [← hoff, charIdxAt_utf8Len text i (by omega)]
    rw [← utf8Len_append, ← List.take_add]
    exact boundary_take text (i + col)

theorem spec_c3_witness :
    IsBoundary ['é', 'b'] 2 ∧
    ((∀ p ∈ wrap_spans [⟨['a'], Style.default⟩] 1,
        IsBoundary (plain_text [⟨['a'], Style.default⟩]) p.2) ∧
      IsBoundary ['é', 'b'] (screen_to_buf_byte ['é', 'b'] 2 1)) :=
  ⟨by decide, spec_c3 [⟨['a'], Style.default⟩] 1 ['é', 'b'] 2 1 (by decide)⟩

/-! ## C8: `selected_text` -/

theorem floorB_zero (text : List Char) : floorB text 0 = 0 := by
  cases text with
  | nil => rfl
  | cons c r =>
    have hpos := Char.utf8Size_pos c
    rw [floorB, if_neg (by omega)]

theorem ceilB_len (text : List Char) : ceilB text (utf8Len text) = utf8Len text := by
  induction text with
  | nil => rfl
  | cons c r ih =>
    have hpos := Char.utf8Size_pos c
    have hlen : utf8Len (c :: r) = c.utf8Size + utf8Len r := by simp [utf8Len]
    rw [hlen, ceilB, if_neg (by omega)]
    have hsub : c.utf8Size + utf8Len r - c.utf8Size = utf8Len r := by omega
    rw [hsub, ih]

theorem charIdxAt_zero (text : List Char) : charIdxAt text 0 = 0 := by
  cases text with
  | nil => rfl
  | cons c r => rw [charIdxAt, if_neg (by omega)]

theorem charIdxAt_len (text : List Char) : charIdxAt text (utf8Len text) = text.length := by
  have h := charIdxAt_utf8Len text text.length le_rfl
  rwa [List.take_length] at h

theorem sliceB_full (text : List Char) : sliceB text 0 (utf8Len text) = text := by
  rw [sliceB, charIdxAt_zero, charIdxAt_len, List.drop_zero, Nat.sub_zero, List.take_length]

/-- C8: selecting byte range `[0, len]` on a single-line buffer extracts
exactly that line's plain text (when the line is non-empty), and in general
an empty extraction yields no selection — `selected_text` never returns an
empty string. -/
theorem spec_c8 (line : List StyledSpan) (buffer : List (List StyledSpan))
    (sel : Option (BufPos × BufPos)) (s : List Char) :
    (plain_text line ≠ [] →
      selected_text [line] (some ((0, 0), (0, utf8Len (plain_text line))))
        = some (plain_text line)) ∧
    (selected_text buffer sel = some s → s ≠ []) := by
  constructor
  · intro hne
    have hnorm : selection_range (some ((0, 0), (0, utf8Len (plain_text line))))
        = some ((0, 0), (0, utf8Len (plain_text line))) := by
      simp [selection_range]
    have hpiece : selPiece [line] 0 0 (utf8Len (plain_text line)) 0 0 = plain_text line := by
      simp [selPiece, floorB_zero, ceilB_len, sliceB_full]
    simp only [selected_text, hnorm]
    simp [List.range'_one, hpiece, hne]
  · intro hsome
    unfold selected_text at hsome
    cases hsr : selection_range sel with
    | none => rw [hsr] at hsome; simp at hsome
    | some pr =>
      obtain ⟨s0, e0⟩ := pr
      rw [hsr] at hsome
      simp only at hsome
      by_cases hlb : buffer.length ≤ s0.1
      · rw [if_pos hlb] at hsome
        simp at hsome
      · rw [if_neg hlb] at hsome
        split at hsome
        · simp at hsome
        · rename_i hout
          intro hs
          subst hs
          rw [Option.some_inj] at hsome
          exact hout hsome

theorem spec_c8_witness :
    (plain_text [⟨['h', 'i'], Style.default⟩] ≠ [] ∧
      selected_text [[⟨['h', 'i'], Style.default⟩]]
          (some ((0, 0), (0, utf8Len (plain_text [⟨['h', 'i'], Style.default⟩]))))
        = some (plain_text [⟨['h', 'i'], Style.default⟩])) ∧
    (selected_text [[⟨['h', 'i'], Style.default⟩]] (some ((0, 0), (0, 2)))
        = some ['h', 'i'] ∧
      (['h', 'i'] : List Char) ≠ []) := by
  constructor
  · exact ⟨by decide,
      (spec_c8 [⟨['h', 'i'], Style.default⟩] [] none []).1 (by decide)⟩
  · exact ⟨by decide,
      (spec_c8 [⟨['h', 'i'], Style.default⟩] [[⟨['h', 'i'], Style.default⟩]]
        (some ((0, 0), (0, 2))) ['h', 'i']).2 (by decide)⟩

end Sheesh
